import Mathlib

/-!
Verification of the orchestration-and-validation core of Convert2EBRF
(src/convert2ebrf/brf_to_ebrf.py and src/convert2ebrf/widgets.py).

The development shallowly embeds:
  * the page-number-position data model (`PageNumberPosition`, from
    brf2ebrf.common as used by this repository);
  * the settings-validity tracker (`ConversionPageSettingsWidget._update_validity`
    and `Brf2EbrfDialog._update_validity`);
  * the file-picker round trip (`FilePickerWidget.file_name` and the
    `ConversionGeneralSettingsWidget.output_ebrf` property pair);
  * the conversion orchestrator (`ConvertTask.__call__` / `ConvertTask._convert`)
    as a computable trace function over an abstract behaviour of the external
    conversion primitive `convert_brf2ebrf`.
-/

namespace Convert2EBRF

/-! ## Page number positions (brf2ebrf.common.PageNumberPosition as used here) -/

/-- The closed set of page-number placements used by the settings widgets. -/
inductive PageNumberPosition where
  | NONE
  | TOP_LEFT
  | TOP_RIGHT
  | BOTTOM_LEFT
  | BOTTOM_RIGHT
deriving DecidableEq

/-! ## ConversionPageSettingsWidget: validity tracking -/

/-- The four page-number-position fields read by
`ConversionPageSettingsWidget._update_validity` (brf_to_ebrf.py lines 263-268). -/
structure PageSettingsState where
  odd_braille_page_number_position : PageNumberPosition
  even_braille_page_number_position : PageNumberPosition
  odd_print_page_number_position : PageNumberPosition
  even_print_page_number_position : PageNumberPosition
deriving DecidableEq

/-- The `new_validity` expression of
`ConversionPageSettingsWidget._update_validity` (brf_to_ebrf.py line 265):
`(odd_braille == NONE or odd_braille != odd_print) and
 (even_braille == NONE or even_braille != even_print)`. -/
def new_validity (s : PageSettingsState) : Bool :=
  (s.odd_braille_page_number_position == PageNumberPosition.NONE ||
    s.odd_braille_page_number_position != s.odd_print_page_number_position) &&
  (s.even_braille_page_number_position == PageNumberPosition.NONE ||
    s.even_braille_page_number_position != s.even_print_page_number_position)

/-- State of a `ConversionPageSettingsWidget`: its four combo-box fields plus
the cached `_is_valid` attribute. -/
structure ConversionPageSettingsWidget where
  settings : PageSettingsState
  is_valid : Bool
deriving DecidableEq

/-- `ConversionPageSettingsWidget._update_validity` (brf_to_ebrf.py lines
263-268): recompute validity; if it differs from the cached `_is_valid`,
store it and emit `isValidChanged(new_validity)`.  The second component is
`some v` when the signal `isValidChanged(v)` was emitted and `none` when no
signal was emitted. -/
def update_validity (w : ConversionPageSettingsWidget) :
    ConversionPageSettingsWidget × Option Bool :=
  let old_validity := w.is_valid
  let nv := new_validity w.settings
  if old_validity != nv then ({ w with is_valid := nv }, some nv)
  else (w, none)

/-! ## ConversionGeneralSettingsWidget fields and Brf2EbrfDialog validity -/

/-- The fields of `ConversionGeneralSettingsWidget` read by
`Brf2EbrfDialog._update_validity`: the input-BRF text, the include-images
checkbox, the image-directory text and the output-EBRF text. -/
structure ConversionGeneralSettingsWidget where
  input_brf : String
  include_images : Bool
  image_dir_text : String
  output_ebrf_text : String
deriving DecidableEq

/-- The `image_directory` property (brf_to_ebrf.py lines 173-175): the image
directory text when the include-images checkbox is checked, otherwise
Python `None`. -/
def image_directory (g : ConversionGeneralSettingsWidget) : Option String :=
  if g.include_images then some g.image_dir_text else none

/-- `Brf2EbrfDialog._update_validity` (brf_to_ebrf.py lines 357-362):
`is_valid = page_settings.is_valid and "" not in [input_brf, image_directory, output_ebrf]`.
The membership test is over a Python list whose middle element may be `None`;
it is modelled as a `List (Option String)` containing `some ""`. -/
def dialog_is_valid (page_is_valid : Bool) (g : ConversionGeneralSettingsWidget) : Bool :=
  page_is_valid &&
    !([some g.input_brf, image_directory g, some g.output_ebrf_text].contains (some ""))

/-! ## FilePickerWidget and the output_ebrf property pair -/

/-- State of a `FilePickerWidget` (widgets.py): the text of its internal
`QLineEdit` (`_file_name_edit.text`), plus any plain Python attribute named
`text` that callers may have set directly on the widget object (a `QWidget`
exposes no `text` property, so such an assignment lands in the instance
dictionary and affects nothing else). -/
structure FilePickerWidget where
  line_edit_text : String
  stray_text_attr : Option String
deriving DecidableEq

/-- `FilePickerWidget.file_name` getter (widgets.py lines 41-43): returns
`self._file_name_edit.text`. -/
def FilePickerWidget.file_name (w : FilePickerWidget) : String :=
  w.line_edit_text

/-- `ConversionGeneralSettingsWidget.output_ebrf` getter (brf_to_ebrf.py lines
185-187): `return self._output_ebrf_edit.file_name`. -/
def output_ebrf_get (w : FilePickerWidget) : String :=
  w.file_name

/-- `ConversionGeneralSettingsWidget.output_ebrf` setter (brf_to_ebrf.py lines
189-191): `self._output_ebrf_edit.text = value`.  Since `FilePickerWidget` has
no `text` property, this assignment creates/overwrites a plain attribute on
the widget object and leaves the internal line edit untouched. -/
def output_ebrf_set (w : FilePickerWidget) (value : String) : FilePickerWidget :=
  { w with stray_text_attr := some value }

/-! ## ConvertTask: the conversion orchestrator

`ConvertTask.__call__` / `ConvertTask._convert` (brf_to_ebrf.py lines 47-85)
drive one call of the external primitive `convert_brf2ebrf` per input file.
The external primitive is opaque to this repository; one invocation of it is
abstracted by a `PrimBehavior`: the length of the parser pipeline it was built
with (`parser_steps = len(parser)`), the raw progress values it passes to the
progress callback, in order, and how the call ends (normal return,
`ParsingCancelledException`, or any other exception).

A run is embedded as the list of observable steps it performs, in order:
signal emissions, filesystem actions on the destination path `output_ebrf`,
and invocations of the external primitive. -/

/-- How one call of the external primitive `convert_brf2ebrf` ends. -/
inductive PrimOutcome (ε : Type) where
  | ok
  | cancelledSig
  | err (e : ε)
deriving DecidableEq

/-- Abstract behaviour of one invocation of the external primitive on one
input: the parser pipeline length, the raw values it reports to the progress
callback (the code divides each by `parser_steps`), and how the call ends. -/
structure PrimBehavior (ε : Type) where
  steps : Nat
  reports : List ℚ
  outcome : PrimOutcome ε
deriving DecidableEq

/-- The Qt signals of `ConvertTask` (brf_to_ebrf.py lines 37-41). -/
inductive Event (ε : Type) where
  | started
  | progress (index : Nat) (fraction : ℚ)
  | finished
  | cancelled
  | errorRaised (e : ε)
deriving DecidableEq

/-- One observable step of a run: a signal emission, a filesystem action on
the destination path, or an invocation of the external primitive. -/
inductive Step (ε : Type) where
  | emit (e : Event ε)
  | fsOpenTrunc
  | fsWriteArchive (volumes : Nat)
  | fsUnlink
  | invokePrim (index : Nat)
deriving DecidableEq

/-- The result with which `_convert` returns to `__call__`: normal return,
`ParsingCancelledException`, or another exception. -/
inductive ConvResult (ε : Type) where
  | ok
  | cancelled
  | error (e : ε)
deriving DecidableEq

/-- The steps of one iteration of the loop in `_convert` (brf_to_ebrf.py lines
66-78): the external primitive is invoked for input `index`, and each raw
progress value `x` it reports triggers
`self.progress.emit(index, x / parser_steps)`. -/
def primSteps (index : Nat) (p : PrimBehavior ε) : List (Step ε) :=
  Step.invokePrim index ::
    p.reports.map fun x => Step.emit (Event.progress index (x / (p.steps : ℚ)))

/-- The loop `for index, brf in enumerate(input_brf_list)` of `_convert`
(brf_to_ebrf.py lines 66-78): each input in order is handed to the external
primitive; a `ParsingCancelledException` or other exception raised by the
primitive propagates immediately, ending the loop.  The loop body contains no
test of `self._cancel_requested`; the flag is only captured by the
`is_cancelled` closure passed to the primitive. -/
def loopSteps (index : Nat) : List (PrimBehavior ε) → List (Step ε) × ConvResult ε
  | [] => ([], ConvResult.ok)
  | p :: rest =>
    match p.outcome with
    | PrimOutcome.ok =>
        let r := loopSteps (index + 1) rest
        (primSteps index p ++ r.1, r.2)
    | PrimOutcome.cancelledSig => (primSteps index p, ConvResult.cancelled)
    | PrimOutcome.err e => (primSteps index p, ConvResult.error e)

/-- `ConvertTask._convert` (brf_to_ebrf.py lines 61-82): it first opens
`output_ebrf` with mode "wb" (creating or truncating the destination file),
then creates the staging directory with its `images` subdirectory, runs the
per-input loop, and - only when every input returned normally - packages the
staging directory into a zip archive holding `inputs.length` volume files plus
the images directory and copies it into the already-open destination file. -/
def convertSteps (inputs : List (PrimBehavior ε)) : List (Step ε) × ConvResult ε :=
  let r := loopSteps 0 inputs
  match r.2 with
  | ConvResult.ok =>
      (Step.fsOpenTrunc :: r.1 ++ [Step.fsWriteArchive inputs.length], ConvResult.ok)
  | ConvResult.cancelled => (Step.fsOpenTrunc :: r.1, ConvResult.cancelled)
  | ConvResult.error e => (Step.fsOpenTrunc :: r.1, ConvResult.error e)

/-- `ConvertTask.__call__` (brf_to_ebrf.py lines 47-59): emit `started`, run
`_convert`; on normal return emit `finished`; on `ParsingCancelledException`
unlink `output_ebrf` and emit `cancelled`; on any other exception unlink
`output_ebrf` and emit `errorRaised(e)` with the exception object unchanged.

The parameter `cancel_requested` is the value of `self._cancel_requested` (set
by `ConvertTask.cancel`, brf_to_ebrf.py lines 84-85) as the run starts.
Neither `__call__` nor `_convert` ever reads the flag: it is referenced only
inside the `is_cancelled` lambda handed to the external primitive, so the
trace is a function of the primitive behaviours alone and the parameter is
unused. -/
def callSteps (_cancel_requested : Bool) (inputs : List (PrimBehavior ε)) :
    List (Step ε) :=
  let r := convertSteps inputs
  Step.emit Event.started ::
    match r.2 with
    | ConvResult.ok => r.1 ++ [Step.emit Event.finished]
    | ConvResult.cancelled => r.1 ++ [Step.fsUnlink, Step.emit Event.cancelled]
    | ConvResult.error e => r.1 ++ [Step.fsUnlink, Step.emit (Event.errorRaised e)]

/-! ## Observations over a run trace -/

/-- The state of the destination path `output_ebrf`: no file, an empty file
(just created/truncated by the "wb" open), or the packaged archive of
`volumes` staged volume files plus the images directory. -/
inductive OutFile where
  | absent
  | emptyFile
  | archiveFile (volumes : Nat)
deriving DecidableEq

/-- Effect of one step on the destination path. -/
def applyStep (s : OutFile) : Step ε → OutFile
  | Step.fsOpenTrunc => OutFile.emptyFile
  | Step.fsWriteArchive n => OutFile.archiveFile n
  | Step.fsUnlink => OutFile.absent
  | _ => s

/-- The state of the destination path after a list of steps, starting from
state `s₀`. -/
def fsAfter (s₀ : OutFile) (tr : List (Step ε)) : OutFile :=
  tr.foldl applyStep s₀

/-- The signals emitted along a trace, in order. -/
def emitted (tr : List (Step ε)) : List (Event ε) :=
  tr.filterMap fun s =>
    match s with
    | Step.emit e => some e
    | _ => none

/-- Whether an event is a `progress` signal. -/
def isProgressEvent : Event ε → Bool
  | Event.progress _ _ => true
  | _ => false

/-- Whether an event is one of the three terminal signals. -/
def isTerminalEvent : Event ε → Bool
  | Event.finished => true
  | Event.cancelled => true
  | Event.errorRaised _ => true
  | _ => false

/-- The overall fraction computed by the progress consumer wired up in
`Brf2EbrfDialog.on_apply` (brf_to_ebrf.py line 407):
`lambda i, p: update_progress((i + p) / num_of_inputs)`. -/
def overallFraction (n index : Nat) (fraction : ℚ) : ℚ :=
  ((index : ℚ) + fraction) / (n : ℚ)

/-- The overall fraction the consumer derives from one event, if any: only
`progress` signals are connected to `update_progress` through the
`(i + p) / num_of_inputs` lambda. -/
def fracOf (n : Nat) : Event ε → Option ℚ
  | Event.progress i f => some (overallFraction n i f)
  | _ => none

/-- The sequence of overall fractions the progress consumer receives over a
run trace, in order. -/
def overallFractions (n : Nat) (tr : List (Step ε)) : List ℚ :=
  (emitted tr).filterMap (fracOf n)

/-- A primitive behaviour satisfying the trust assumptions on the external
collaborator: a positive pipeline length and raw progress reports that are
non-decreasing and within `[0, parser_steps]`. -/
def goodPrim (p : PrimBehavior ε) : Prop :=
  0 < p.steps ∧ p.reports.Chain' (· ≤ ·) ∧
    ∀ x ∈ p.reports, 0 ≤ x ∧ x ≤ (p.steps : ℚ)

instance (p : PrimBehavior ε) : Decidable (goodPrim p) :=
  inferInstanceAs (Decidable (0 < p.steps ∧ p.reports.Chain' (· ≤ ·) ∧
    ∀ x ∈ p.reports, 0 ≤ x ∧ x ≤ (p.steps : ℚ)))

/-- The terminal event `__call__` emits for each way `_convert` can end. -/
def terminalOf : ConvResult ε → Event ε
  | ConvResult.ok => Event.finished
  | ConvResult.cancelled => Event.cancelled
  | ConvResult.error e => Event.errorRaised e

/-! ## Structural lemmas about run traces -/

theorem emitted_append (l₁ l₂ : List (Step ε)) :
    emitted (l₁ ++ l₂) = emitted l₁ ++ emitted l₂ := by
  simp [emitted]

theorem emitted_emit_map (f : α → Event ε) (l : List α) :
    emitted (l.map fun x => Step.emit (f x)) = l.map f := by
  induction l with
  | nil => rfl
  | cons x xs ih => simpa [emitted] using ih

theorem emitted_primSteps (k : Nat) (p : PrimBehavior ε) :
    emitted (primSteps k p) =
      p.reports.map fun x => Event.progress k (x / (p.steps : ℚ)) :=
  emitted_emit_map _ _

theorem emitted_loopSteps_progress (l : List (PrimBehavior ε)) : ∀ (k : Nat),
    ∀ e ∈ emitted (loopSteps k l).1, isProgressEvent e = true := by
  induction l with
  | nil => intro k e he; simp [loopSteps, emitted] at he
  | cons p rest ih =>
      intro k e he
      cases ho : p.outcome with
      | ok =>
          simp only [loopSteps, ho] at he
          rw [emitted_append] at he
          rcases List.mem_append.mp he with h | h
          · rw [emitted_primSteps] at h
            rcases List.mem_map.mp h with ⟨x, _, rfl⟩
            rfl
          · exact ih (k + 1) e h
      | cancelledSig =>
          simp only [loopSteps, ho, emitted_primSteps] at he
          rcases List.mem_map.mp he with ⟨x, _, rfl⟩
          rfl
      | err e' =>
          simp only [loopSteps, ho, emitted_primSteps] at he
          rcases List.mem_map.mp he with ⟨x, _, rfl⟩
          rfl

theorem emitted_callSteps (c : Bool) (inputs : List (PrimBehavior ε)) :
    emitted (callSteps c inputs) =
      Event.started :: emitted (loopSteps 0 inputs).1 ++
        [terminalOf (loopSteps 0 inputs).2] := by
  cases hr : (loopSteps 0 inputs).2 with
  | ok =>
      simp [callSteps, convertSteps, hr, terminalOf, emitted_append, emitted]
  | cancelled =>
      simp [callSteps, convertSteps, hr, terminalOf, emitted_append, emitted]
  | error e =>
      simp [callSteps, convertSteps, hr, terminalOf, emitted_append, emitted]

theorem fsAfter_append (s₀ : OutFile) (l₁ l₂ : List (Step ε)) :
    fsAfter s₀ (l₁ ++ l₂) = fsAfter (fsAfter s₀ l₁) l₂ := by
  simp [fsAfter, List.foldl_append]

theorem fsAfter_emit_map (s₀ : OutFile) (f : α → Event ε) (l : List α) :
    fsAfter s₀ (l.map fun x => Step.emit (f x)) = s₀ := by
  induction l with
  | nil => rfl
  | cons x xs ih => simpa [fsAfter, applyStep] using ih

theorem fsAfter_primSteps (s₀ : OutFile) (k : Nat) (p : PrimBehavior ε) :
    fsAfter s₀ (primSteps k p) = s₀ := by
  have h := fsAfter_emit_map (ε := ε) s₀
    (fun x => Event.progress k (x / (p.steps : ℚ))) p.reports
  simpa [primSteps, fsAfter, applyStep] using h

theorem fsAfter_loopSteps (l : List (PrimBehavior ε)) : ∀ (k : Nat) (s₀ : OutFile),
    fsAfter s₀ (loopSteps k l).1 = s₀ := by
  induction l with
  | nil => intro k s₀; rfl
  | cons p rest ih =>
      intro k s₀
      cases ho : p.outcome with
      | ok =>
          simp only [loopSteps, ho]
          rw [fsAfter_append, fsAfter_primSteps]
          exact ih (k + 1) s₀
      | cancelledSig => simp only [loopSteps, ho]; exact fsAfter_primSteps s₀ k p
      | err e => simp only [loopSteps, ho]; exact fsAfter_primSteps s₀ k p

theorem fsAfter_cons (s₀ : OutFile) (a : Step ε) (tr : List (Step ε)) :
    fsAfter s₀ (a :: tr) = fsAfter (applyStep s₀ a) tr := rfl

theorem fsAfter_callSteps_ok (c : Bool) (inputs : List (PrimBehavior ε))
    (h : (loopSteps 0 inputs).2 = ConvResult.ok) (s₀ : OutFile) :
    fsAfter s₀ (callSteps c inputs) = OutFile.archiveFile inputs.length := by
  simp only [callSteps, convertSteps, h, List.cons_append]
  rw [fsAfter_cons, fsAfter_cons, fsAfter_append, fsAfter_append, fsAfter_loopSteps]
  rfl

theorem fsAfter_callSteps_cancelled (c : Bool) (inputs : List (PrimBehavior ε))
    (h : (loopSteps 0 inputs).2 = ConvResult.cancelled) (s₀ : OutFile) :
    fsAfter s₀ (callSteps c inputs) = OutFile.absent := by
  simp only [callSteps, convertSteps, h, List.cons_append]
  rw [fsAfter_cons, fsAfter_cons, fsAfter_append, fsAfter_loopSteps]
  rfl

theorem fsAfter_callSteps_error (c : Bool) (inputs : List (PrimBehavior ε)) (e : ε)
    (h : (loopSteps 0 inputs).2 = ConvResult.error e) (s₀ : OutFile) :
    fsAfter s₀ (callSteps c inputs) = OutFile.absent := by
  simp only [callSteps, convertSteps, h, List.cons_append]
  rw [fsAfter_cons, fsAfter_cons, fsAfter_append, fsAfter_loopSteps]
  rfl

theorem invokePrim_mem_primSteps (j k : Nat) (p : PrimBehavior ε) :
    Step.invokePrim j ∈ primSteps k p ↔ j = k := by
  simp [primSteps]

theorem loop_result_of_pre_ok (pre : List (PrimBehavior ε)) :
    ∀ (k : Nat) (p : PrimBehavior ε) (post : List (PrimBehavior ε)),
    (∀ q ∈ pre, q.outcome = PrimOutcome.ok) →
    p.outcome ≠ PrimOutcome.ok →
    (loopSteps k (pre ++ p :: post)).2 =
      (match p.outcome with
       | PrimOutcome.ok => ConvResult.ok
       | PrimOutcome.cancelledSig => ConvResult.cancelled
       | PrimOutcome.err e => ConvResult.error e) := by
  induction pre with
  | nil =>
      intro k p post _ hp
      cases ho : p.outcome with
      | ok => exact absurd ho hp
      | cancelledSig => simp [loopSteps, ho]
      | err e => simp [loopSteps, ho]
  | cons q pre ih =>
      intro k p post hpre hp
      have hq : q.outcome = PrimOutcome.ok := hpre q (List.mem_cons_self q pre)
      have h := ih (k + 1) p post (fun r hr => hpre r (List.mem_cons_of_mem q hr)) hp
      simp only [List.cons_append, loopSteps, hq]
      exact h

theorem invoke_mem_loop_of_pre_ok (pre : List (PrimBehavior ε)) :
    ∀ (k : Nat) (p : PrimBehavior ε) (post : List (PrimBehavior ε)),
    (∀ q ∈ pre, q.outcome = PrimOutcome.ok) →
    Step.invokePrim (k + pre.length) ∈ (loopSteps k (pre ++ p :: post)).1 := by
  induction pre with
  | nil =>
      intro k p post _
      cases ho : p.outcome with
      | ok =>
          simp only [List.nil_append, loopSteps, ho, List.length_nil, Nat.add_zero]
          exact List.mem_append_left _ ((invokePrim_mem_primSteps k k p).mpr rfl)
      | cancelledSig =>
          simp only [List.nil_append, loopSteps, ho, List.length_nil, Nat.add_zero]
          exact (invokePrim_mem_primSteps k k p).mpr rfl
      | err e =>
          simp only [List.nil_append, loopSteps, ho, List.length_nil, Nat.add_zero]
          exact (invokePrim_mem_primSteps k k p).mpr rfl
  | cons q pre ih =>
      intro k p post hpre
      have hq : q.outcome = PrimOutcome.ok := hpre q (List.mem_cons_self q pre)
      have h := ih (k + 1) p post (fun r hr => hpre r (List.mem_cons_of_mem q hr))
      simp only [List.cons_append, loopSteps, hq, List.length_cons]
      refine List.mem_append_right _ ?_
      have : k + 1 + pre.length = k + (pre.length + 1) := by omega
      rwa [this] at h

theorem invoke_bound_loop_of_pre_ok (pre : List (PrimBehavior ε)) :
    ∀ (k j : Nat) (p : PrimBehavior ε) (post : List (PrimBehavior ε)),
    (∀ q ∈ pre, q.outcome = PrimOutcome.ok) →
    p.outcome ≠ PrimOutcome.ok →
    Step.invokePrim j ∈ (loopSteps k (pre ++ p :: post)).1 →
    j ≤ k + pre.length := by
  induction pre with
  | nil =>
      intro k j p post _ hp hmem
      cases ho : p.outcome with
      | ok => exact absurd ho hp
      | cancelledSig =>
          simp only [List.nil_append, loopSteps, ho] at hmem
          have := (invokePrim_mem_primSteps j k p).mp hmem
          omega
      | err e =>
          simp only [List.nil_append, loopSteps, ho] at hmem
          have := (invokePrim_mem_primSteps j k p).mp hmem
          omega
  | cons q pre ih =>
      intro k j p post hpre hp hmem
      have hq : q.outcome = PrimOutcome.ok := hpre q (List.mem_cons_self q pre)
      simp only [List.cons_append, loopSteps, hq] at hmem
      rcases List.mem_append.mp hmem with h | h
      · have := (invokePrim_mem_primSteps j k q).mp h
        simp [this]
      · have := ih (k + 1) j p post (fun r hr => hpre r (List.mem_cons_of_mem q hr)) hp h
        simp only [List.length_cons]
        omega

/-! ## The overall-fraction sequence -/

/-- The overall fractions generated while the external primitive processes the
input at position `index`: one value `((index + x / steps) / n)` per raw
report `x`. -/
def inputFracs (n index : Nat) (p : PrimBehavior ε) : List ℚ :=
  p.reports.map fun x => overallFraction n index (x / (p.steps : ℚ))

/-- The overall fractions generated by the whole per-input loop, starting at
position `index`. -/
def loopFracs (n index : Nat) : List (PrimBehavior ε) → List ℚ
  | [] => []
  | p :: rest =>
    match p.outcome with
    | PrimOutcome.ok => inputFracs n index p ++ loopFracs n (index + 1) rest
    | _ => inputFracs n index p

theorem filterMap_fracOf_progress_map (n k : Nat) (h : ℚ → ℚ) (l : List ℚ) :
    (l.map fun x => Event.progress (ε := ε) k (h x)).filterMap (fracOf n) =
      l.map fun x => overallFraction n k (h x) := by
  induction l with
  | nil => rfl
  | cons x xs ih => simpa [fracOf] using ih

theorem overallFractions_loop (n : Nat) (l : List (PrimBehavior ε)) : ∀ (k : Nat),
    (emitted (loopSteps k l).1).filterMap (fracOf (ε := ε) n) = loopFracs n k l := by
  induction l with
  | nil => intro k; rfl
  | cons p rest ih =>
      intro k
      cases ho : p.outcome with
      | ok =>
          simp only [loopSteps, ho, loopFracs, emitted_append, List.filterMap_append,
            emitted_primSteps, inputFracs]
          rw [filterMap_fracOf_progress_map, ih (k + 1)]
      | cancelledSig =>
          simp only [loopSteps, ho, loopFracs, emitted_primSteps, inputFracs]
          rw [filterMap_fracOf_progress_map]
      | err e =>
          simp only [loopSteps, ho, loopFracs, emitted_primSteps, inputFracs]
          rw [filterMap_fracOf_progress_map]

theorem overallFractions_callSteps (n : Nat) (c : Bool) (inputs : List (PrimBehavior ε)) :
    overallFractions n (callSteps c inputs) = loopFracs n 0 inputs := by
  rw [overallFractions, emitted_callSteps, List.cons_append]
  show List.filterMap (fracOf n)
      (emitted (loopSteps 0 inputs).1 ++ [terminalOf (loopSteps 0 inputs).2]) = _
  rw [List.filterMap_append, overallFractions_loop]
  have : List.filterMap (fracOf (ε := ε) n) [terminalOf (loopSteps 0 inputs).2] = [] := by
    cases (loopSteps 0 inputs).2 <;> rfl
  rw [this, List.append_nil]

theorem inputFracs_bounds (n k : Nat) (p : PrimBehavior ε) (hp : goodPrim p)
    (hn : 0 < n) :
    ∀ q ∈ inputFracs n k p,
      (k : ℚ) / (n : ℚ) ≤ q ∧ q ≤ ((k : ℚ) + 1) / (n : ℚ) := by
  rcases hp with ⟨hs, _, hbound⟩
  intro q hq
  rcases List.mem_map.mp hq with ⟨x, hx, rfl⟩
  rcases hbound x hx with ⟨hx0, hxs⟩
  have hsQ : (0 : ℚ) < (p.steps : ℚ) := by exact_mod_cast hs
  have hnQ : (0 : ℚ) < (n : ℚ) := by exact_mod_cast hn
  have h0 : (0 : ℚ) ≤ x / (p.steps : ℚ) := div_nonneg hx0 (le_of_lt hsQ)
  have h1 : x / (p.steps : ℚ) ≤ 1 := (div_le_one hsQ).mpr hxs
  constructor
  · unfold overallFraction
    exact div_le_div_of_nonneg_right (by linarith) hnQ.le
  · unfold overallFraction
    exact div_le_div_of_nonneg_right (by linarith) hnQ.le

theorem inputFracs_chain (n k : Nat) (p : PrimBehavior ε) (hp : goodPrim p)
    (hn : 0 < n) :
    (inputFracs n k p).Chain' (· ≤ ·) := by
  rcases hp with ⟨hs, hchain, _⟩
  have hsQ : (0 : ℚ) < (p.steps : ℚ) := by exact_mod_cast hs
  have hnQ : (0 : ℚ) < (n : ℚ) := by exact_mod_cast hn
  rw [inputFracs, List.chain'_map]
  refine hchain.imp ?_
  intro a b hab
  unfold overallFraction
  have h1 : a / (p.steps : ℚ) ≤ b / (p.steps : ℚ) :=
    div_le_div_of_nonneg_right hab hsQ.le
  exact div_le_div_of_nonneg_right (by linarith) hnQ.le

theorem loopFracs_bounds (n : Nat) (l : List (PrimBehavior ε)) : ∀ (k : Nat),
    (∀ p ∈ l, goodPrim p) → 0 < n →
    ∀ q ∈ loopFracs n k l,
      (k : ℚ) / (n : ℚ) ≤ q ∧ q ≤ ((k : ℚ) + (l.length : ℚ)) / (n : ℚ) := by
  induction l with
  | nil => intro k _ _ q hq; simp [loopFracs] at hq
  | cons p rest ih =>
      intro k hgood hn q hq
      have hp : goodPrim p := hgood p (List.mem_cons_self p rest)
      have hnQ : (0 : ℚ) < (n : ℚ) := by exact_mod_cast hn
      have hrest : ∀ r ∈ rest, goodPrim r :=
        fun r hr => hgood r (List.mem_cons_of_mem p hr)
      have hlen : ((rest.length : ℚ)) ≥ 0 := by positivity
      have hfirst : ∀ q ∈ inputFracs n k p,
          (k : ℚ) / (n : ℚ) ≤ q ∧
            q ≤ ((k : ℚ) + ((p :: rest).length : ℚ)) / (n : ℚ) := by
        intro q hq
        rcases inputFracs_bounds n k p hp hn q hq with ⟨h1, h2⟩
        refine ⟨h1, le_trans h2 (div_le_div_of_nonneg_right ?_ hnQ.le)⟩
        simp only [List.length_cons]
        push_cast
        linarith
      cases ho : p.outcome with
      | ok =>
          simp only [loopFracs, ho] at hq
          rcases List.mem_append.mp hq with h | h
          · exact hfirst q h
          · rcases ih (k + 1) hrest hn q h with ⟨h1, h2⟩
            have hcast : (((k + 1 : ℕ)) : ℚ) = (k : ℚ) + 1 := by push_cast; ring
            rw [hcast] at h1 h2
            constructor
            · have hk1 : (k : ℚ) / (n : ℚ) ≤ ((k : ℚ) + 1) / (n : ℚ) :=
                div_le_div_of_nonneg_right (by linarith) hnQ.le
              linarith
            · refine le_trans h2 (div_le_div_of_nonneg_right ?_ hnQ.le)
              simp only [List.length_cons]
              push_cast
              linarith
      | cancelledSig =>
          simp only [loopFracs, ho] at hq
          exact hfirst q hq
      | err e =>
          simp only [loopFracs, ho] at hq
          exact hfirst q hq

theorem loopFracs_chain (n : Nat) (l : List (PrimBehavior ε)) : ∀ (k : Nat),
    (∀ p ∈ l, goodPrim p) → 0 < n →
    (loopFracs n k l).Chain' (· ≤ ·) := by
  induction l with
  | nil => intro k _ _; simp [loopFracs]
  | cons p rest ih =>
      intro k hgood hn
      have hp : goodPrim p := hgood p (List.mem_cons_self p rest)
      have hnQ : (0 : ℚ) < (n : ℚ) := by exact_mod_cast hn
      have hrest : ∀ r ∈ rest, goodPrim r :=
        fun r hr => hgood r (List.mem_cons_of_mem p hr)
      cases ho : p.outcome with
      | ok =>
          simp only [loopFracs, ho]
          rw [List.chain'_append]
          refine ⟨inputFracs_chain n k p hp hn, ih (k + 1) hrest hn, ?_⟩
          intro x hx y hy
          have hx' : x ∈ inputFracs n k p := List.mem_of_mem_getLast? hx
          have hy' : y ∈ loopFracs n (k + 1) rest := List.mem_of_mem_head? hy
          have h1 := (inputFracs_bounds n k p hp hn x hx').2
          have h2 := (loopFracs_bounds n rest (k + 1) hrest hn y hy').1
          refine le_trans h1 (le_trans ?_ h2)
          apply div_le_div_of_nonneg_right ?_ hnQ.le
          push_cast
          linarith
      | cancelledSig =>
          simp only [loopFracs, ho]
          exact inputFracs_chain n k p hp hn
      | err e =>
          simp only [loopFracs, ho]
          exact inputFracs_chain n k p hp hn

theorem progress_mem_loop (l : List (PrimBehavior ε)) : ∀ (k i : Nat) (f : ℚ),
    Event.progress i f ∈ emitted (loopSteps k l).1 →
    k ≤ i ∧ i < k + l.length ∧ ∃ p ∈ l, ∃ x ∈ p.reports, f = x / (p.steps : ℚ) := by
  induction l with
  | nil => intro k i f h; simp [loopSteps, emitted] at h
  | cons p rest ih =>
      intro k i f h
      have hfirst : Event.progress i f ∈ emitted (primSteps k p) →
          k ≤ i ∧ i < k + (p :: rest).length ∧
            ∃ p' ∈ p :: rest, ∃ x ∈ p'.reports, f = x / (p'.steps : ℚ) := by
        intro hm
        rw [emitted_primSteps] at hm
        rcases List.mem_map.mp hm with ⟨x, hx, heq⟩
        have hi : i = k := by cases heq; rfl
        have hf : f = x / (p.steps : ℚ) := by cases heq; rfl
        subst hi
        refine ⟨le_refl _, by simp only [List.length_cons]; omega,
          p, List.mem_cons_self p rest, x, hx, hf⟩
      cases ho : p.outcome with
      | ok =>
          simp only [loopSteps, ho, emitted_append] at h
          rcases List.mem_append.mp h with hm | hm
          · exact hfirst hm
          · rcases ih (k + 1) i f hm with ⟨h1, h2, p', hp', hx⟩
            exact ⟨by omega, by simp only [List.length_cons]; omega,
              p', List.mem_cons_of_mem p hp', hx⟩
      | cancelledSig =>
          simp only [loopSteps, ho] at h
          exact hfirst h
      | err e =>
          simp only [loopSteps, ho] at h
          exact hfirst h

theorem invoke_mem_callSteps (c : Bool) (inputs : List (PrimBehavior ε)) (j : Nat)
    (h : Step.invokePrim j ∈ callSteps c inputs) :
    Step.invokePrim j ∈ (loopSteps 0 inputs).1 := by
  cases hr : (loopSteps 0 inputs).2 with
  | ok => simp only [callSteps, convertSteps, hr] at h; simpa using h
  | cancelled => simp only [callSteps, convertSteps, hr] at h; simpa using h
  | error e => simp only [callSteps, convertSteps, hr] at h; simpa using h

theorem loop_sub_callSteps (c : Bool) (inputs : List (PrimBehavior ε))
    (s : Step ε) (h : s ∈ (loopSteps 0 inputs).1) : s ∈ callSteps c inputs := by
  cases hr : (loopSteps 0 inputs).2 with
  | ok => simp only [callSteps, convertSteps, hr]; simp [h]
  | cancelled => simp only [callSteps, convertSteps, hr]; simp [h]
  | error e => simp only [callSteps, convertSteps, hr]; simp [h]

theorem noWrite_fsAfter (tr : List (Step ε)) : ∀ (s₀ : OutFile),
    (∀ m, Step.fsWriteArchive m ∉ tr) →
    fsAfter s₀ tr = s₀ ∨ fsAfter s₀ tr = OutFile.emptyFile ∨
      fsAfter s₀ tr = OutFile.absent := by
  induction tr with
  | nil => intro s₀ _; exact Or.inl rfl
  | cons st tr ih =>
      intro s₀ hnw
      have hnw' : ∀ m, Step.fsWriteArchive m ∉ tr :=
        fun m hm => hnw m (List.mem_cons_of_mem st hm)
      cases st with
      | emit e => exact ih s₀ hnw'
      | fsOpenTrunc =>
          rcases ih OutFile.emptyFile hnw' with h | h | h
          · exact Or.inr (Or.inl h)
          · exact Or.inr (Or.inl h)
          · exact Or.inr (Or.inr h)
      | fsWriteArchive m => exact absurd (List.mem_cons_self _ tr) (hnw m)
      | fsUnlink =>
          rcases ih OutFile.absent hnw' with h | h | h
          · exact Or.inr (Or.inr h)
          · exact Or.inr (Or.inl h)
          · exact Or.inr (Or.inr h)
      | invokePrim j => exact ih s₀ hnw'

theorem callSteps_starts_with_open (c : Bool) (inputs : List (PrimBehavior ε)) :
    ∃ tail, callSteps c inputs =
      Step.emit Event.started :: Step.fsOpenTrunc :: tail := by
  cases hr : (loopSteps 0 inputs).2 with
  | ok => simp only [callSteps, convertSteps, hr, List.cons_append]; exact ⟨_, rfl⟩
  | cancelled => simp only [callSteps, convertSteps, hr, List.cons_append]; exact ⟨_, rfl⟩
  | error e => simp only [callSteps, convertSteps, hr, List.cons_append]; exact ⟨_, rfl⟩

/-! ## Claim theorems: settings validity tracker -/

/-- Claim C3: the derived readiness boolean is true iff the input selection
and output path are non-empty, the image directory is non-empty whenever
image inclusion is enabled, and for each parity independently the braille
page-number placement equals NONE or differs from the print page-number
placement of the same parity; moreover it is false whenever the output path
is the empty string, regardless of all other fields. -/
theorem c3_readiness_iff :
    (∀ (p : PageSettingsState) (g : ConversionGeneralSettingsWidget),
      dialog_is_valid (new_validity p) g = true ↔
        (g.input_brf ≠ "" ∧ g.output_ebrf_text ≠ "" ∧
          (g.include_images = true → g.image_dir_text ≠ "") ∧
          (p.odd_braille_page_number_position = PageNumberPosition.NONE ∨
            p.odd_braille_page_number_position ≠ p.odd_print_page_number_position) ∧
          (p.even_braille_page_number_position = PageNumberPosition.NONE ∨
            p.even_braille_page_number_position ≠ p.even_print_page_number_position))) ∧
    (∀ (b : Bool) (g : ConversionGeneralSettingsWidget),
      dialog_is_valid b { g with output_ebrf_text := "" } = false) := by
  constructor
  · intro p g
    cases hi : g.include_images with
    | true =>
        simp only [dialog_is_valid, new_validity, image_directory, hi, List.contains]
        simp [hi]
        constructor
        · rintro ⟨⟨ho, he⟩, hin, himg, hout⟩
          exact ⟨fun h => hin h.symm, fun h => hout h.symm, fun h => himg h.symm, ho, he⟩
        · rintro ⟨hin, hout, himg, ho, he⟩
          exact ⟨⟨ho, he⟩, fun h => hin h.symm, fun h => himg h.symm, fun h => hout h.symm⟩
    | false =>
        simp only [dialog_is_valid, new_validity, image_directory, hi, List.contains]
        simp [hi]
        constructor
        · rintro ⟨⟨ho, he⟩, hin, hout⟩
          exact ⟨fun h => hin h.symm, fun h => hout h.symm, ho, he⟩
        · rintro ⟨hin, hout, ho, he⟩
          exact ⟨⟨ho, he⟩, fun h => hin h.symm, fun h => hout h.symm⟩
  · intro b g
    simp [dialog_is_valid, image_directory]

/-- Claim C8: the `isValidChanged` notification fires exactly when a
recomputation produces a boolean different from the cached previous value: it
fires (with the new value) iff the recomputed boolean differs from the cached
one, never fires when the recomputation leaves it unchanged, and after the
update the cached value always equals the recomputed one. -/
theorem c8_validity_signal_edge_triggered (w : ConversionPageSettingsWidget) :
    ((update_validity w).2 ≠ none ↔ new_validity w.settings ≠ w.is_valid) ∧
    ((update_validity w).2 = some (new_validity w.settings) ↔
      new_validity w.settings ≠ w.is_valid) ∧
    (update_validity w).1.is_valid = new_validity w.settings := by
  by_cases heq : w.is_valid = new_validity w.settings
  · simp [update_validity, ← heq]
  · have hne : (w.is_valid != new_validity w.settings) = true := by
      simpa using heq
    simp [update_validity, hne]
    exact fun h => heq h.symm

/-- Claim C9: assigning `v` to the `output_ebrf` property writes a plain
`text` attribute on the output `FilePickerWidget` while the getter reads the
line edit through `file_name`; the set-then-get round trip therefore returns
the previous value, and fails to return `v` whenever `v` differs from the
current value. -/
theorem c9_output_ebrf_set_get_mismatch (w : FilePickerWidget) (v : String) :
    output_ebrf_get (output_ebrf_set w v) = output_ebrf_get w ∧
    (v ≠ output_ebrf_get w → output_ebrf_get (output_ebrf_set w v) ≠ v) :=
  ⟨rfl, fun h hc => h hc.symm⟩

/-- Concrete instance of the C9 round-trip failure: a widget showing "old"
keeps returning "old" after the setter is handed "new". -/
theorem c9_output_ebrf_set_get_mismatch_witness :
    "new" ≠ output_ebrf_get ⟨"old", none⟩ ∧
      output_ebrf_get (output_ebrf_set ⟨"old", none⟩ "new") ≠ "new" :=
  ⟨by decide, (c9_output_ebrf_set_get_mismatch ⟨"old", none⟩ "new").2 (by decide)⟩

/-! ## Claim theorems: conversion orchestrator -/

/-- The property claimed of a run trace: at every point prior to the final
archive write, the destination path is untouched (its state equals the
pre-run state). -/
def untouchedBeforeFinalWrite (s₀ : OutFile) (tr : List (Step ε)) : Prop :=
  ∀ pre rest, pre ++ rest = tr →
    (∀ m, Step.fsWriteArchive m ∉ pre) → fsAfter s₀ pre = s₀

/-- Claim C1 fails on the code: on a one-input run that succeeds, the
destination file already exists (created and truncated by the mode-"wb" open
at the top of `_convert`) right after the run starts, before any conversion
and before the final packaging write. -/
theorem c1_destination_touched_before_final_write :
    ¬ untouchedBeforeFinalWrite OutFile.absent
        (callSteps (ε := Unit) false [⟨1, [], PrimOutcome.ok⟩]) := by
  intro h
  have h2 := h [Step.emit Event.started, Step.fsOpenTrunc]
    [Step.invokePrim 0, Step.fsWriteArchive 1, Step.emit Event.finished]
    (by decide) (by intro m hm; simp at hm)
  exact absurd h2 (by decide)

/-- Claim C1 (amended): the destination file is created (truncated to empty)
immediately when the run starts - the trace always begins with the `started`
signal followed by the mode-"wb" open - and before the single final archive
write the destination never holds archive content: at any point not past a
`fsWriteArchive` step it is the pre-run state, the empty file, or absent, so
an interruption before the final step can leave an empty file but never a
partially written archive. -/
theorem c1_no_archive_at_destination_before_final_write (c : Bool)
    (inputs : List (PrimBehavior ε)) (s₀ : OutFile) (pre rest : List (Step ε))
    (_hsplit : pre ++ rest = callSteps c inputs)
    (hnw : ∀ m, Step.fsWriteArchive m ∉ pre) :
    (fsAfter s₀ pre = s₀ ∨ fsAfter s₀ pre = OutFile.emptyFile ∨
      fsAfter s₀ pre = OutFile.absent) ∧
    ∃ tail, callSteps c inputs =
      Step.emit Event.started :: Step.fsOpenTrunc :: tail :=
  ⟨noWrite_fsAfter pre s₀ hnw, callSteps_starts_with_open c inputs⟩

/-- Concrete instance of the amended C1: the two-step prefix of a one-input
run, ending just after the "wb" open, leaves the destination an empty file. -/
theorem c1_no_archive_at_destination_before_final_write_witness :
    (fsAfter OutFile.absent [Step.emit (ε := Unit) Event.started, Step.fsOpenTrunc] =
        OutFile.absent ∨
      fsAfter OutFile.absent [Step.emit (ε := Unit) Event.started, Step.fsOpenTrunc] =
        OutFile.emptyFile ∨
      fsAfter OutFile.absent [Step.emit (ε := Unit) Event.started, Step.fsOpenTrunc] =
        OutFile.absent) ∧
    ∃ tail, callSteps (ε := Unit) false [⟨1, [], PrimOutcome.ok⟩] =
      Step.emit Event.started :: Step.fsOpenTrunc :: tail :=
  c1_no_archive_at_destination_before_final_write false [⟨1, [], PrimOutcome.ok⟩]
    OutFile.absent [Step.emit Event.started, Step.fsOpenTrunc]
    [Step.invokePrim 0, Step.fsWriteArchive 1, Step.emit Event.finished]
    (by decide) (by intro m hm; simp at hm)

/-- Claim C2 fails on the code: with the cooperative cancellation flag already
set before the run begins, the external primitive is still invoked for input
0 (here a primitive that never polls its `isCancelled` predicate and returns
normally), because the per-input loop performs no flag check of its own. -/
theorem c2_primitive_invoked_despite_cancel_request :
    Step.invokePrim 0 ∈ callSteps (ε := Unit) true [⟨1, [], PrimOutcome.ok⟩] := by
  decide

/-- Claim C2 (amended): the Orchestrator itself never observes the
cancellation flag at the top of a per-input iteration - the flag is read only
through the `is_cancelled` closure handed to the external primitive.  Whenever
every input before position `k` returns normally, the primitive is invoked for
input `k` whatever the flag's value, and the whole trace is independent of the
flag. -/
theorem c2_invocation_independent_of_cancel_flag (c c' : Bool)
    (pre post : List (PrimBehavior ε)) (p : PrimBehavior ε)
    (hpre : ∀ q ∈ pre, q.outcome = PrimOutcome.ok) :
    Step.invokePrim pre.length ∈ callSteps c (pre ++ p :: post) ∧
    callSteps c (pre ++ p :: post) = callSteps c' (pre ++ p :: post) := by
  constructor
  · apply loop_sub_callSteps
    have h := invoke_mem_loop_of_pre_ok pre 0 p post hpre
    simpa using h
  · rfl

/-- Concrete instance of the amended C2: a cancelled-from-the-start run over
one input still invokes the primitive for input 0, and its trace equals the
not-cancelled trace. -/
theorem c2_invocation_independent_of_cancel_flag_witness :
    Step.invokePrim 0 ∈
      callSteps (ε := Unit) true ([] ++ (⟨1, [], PrimOutcome.ok⟩ : PrimBehavior Unit) :: []) ∧
    callSteps (ε := Unit) true ([] ++ (⟨1, [], PrimOutcome.ok⟩ : PrimBehavior Unit) :: []) =
      callSteps false ([] ++ (⟨1, [], PrimOutcome.ok⟩ : PrimBehavior Unit) :: []) :=
  c2_invocation_independent_of_cancel_flag true false [] []
    ⟨1, [], PrimOutcome.ok⟩ (by simp)

/-- Claim C7: every run emits `started` first, then zero or more `progress`
signals, then exactly one terminal signal (`finished`, `cancelled` or
`errorRaised`), and nothing after the terminal signal. -/
theorem c7_notification_order (c : Bool) (inputs : List (PrimBehavior ε)) :
    ∃ ps t, emitted (callSteps c inputs) = Event.started :: ps ++ [t] ∧
      (∀ e ∈ ps, isProgressEvent e = true) ∧ isTerminalEvent t = true := by
  refine ⟨emitted (loopSteps 0 inputs).1, terminalOf (loopSteps 0 inputs).2,
    emitted_callSteps c inputs, emitted_loopSteps_progress inputs 0, ?_⟩
  cases (loopSteps 0 inputs).2 <;> rfl

/-- Claim C10: a run over the empty input sequence invokes the external
primitive zero times, emits no `progress` signal, emits `started` then
`finished` (the Completed outcome), and leaves at the destination the archive
packaged from a staging area holding zero volume files (only the empty
`images` directory). -/
theorem c10_empty_input_run (c : Bool) :
    callSteps (ε := Unit) c [] =
      [Step.emit Event.started, Step.fsOpenTrunc, Step.fsWriteArchive 0,
        Step.emit Event.finished] ∧
    (∀ j, Step.invokePrim j ∉ callSteps (ε := Unit) c []) ∧
    emitted (callSteps (ε := Unit) c []) = [Event.started, Event.finished] ∧
    (∀ e ∈ emitted (callSteps (ε := Unit) c []), isProgressEvent e = false) ∧
    fsAfter OutFile.absent (callSteps (ε := Unit) c []) = OutFile.archiveFile 0 := by
  refine ⟨rfl, ?_, rfl, ?_, rfl⟩
  · intro j h
    simp [callSteps, convertSteps, loopSteps] at h
  · intro e he
    have he' : e ∈ [Event.started (ε := Unit), Event.finished] := he
    simp only [List.mem_cons, List.mem_singleton, List.not_mem_nil, or_false] at he'
    rcases he' with rfl | rfl <;> rfl

/-- Claim C5: if the external primitive raises a non-cancellation failure on
input `k` (after all earlier inputs converted normally), the run emits exactly
the `errorRaised` terminal signal carrying the exception object unchanged, the
destination path does not exist after the run (whatever its pre-run state),
and the primitive is never invoked for any input after `k`. -/
theorem c5_failure_terminal_cleanup_no_further_inputs (c : Bool)
    (pre post : List (PrimBehavior ε)) (p : PrimBehavior ε) (e : ε)
    (hpre : ∀ q ∈ pre, q.outcome = PrimOutcome.ok)
    (hp : p.outcome = PrimOutcome.err e) :
    (∃ ps, emitted (callSteps c (pre ++ p :: post)) =
        Event.started :: ps ++ [Event.errorRaised e] ∧
        ∀ ev ∈ ps, isProgressEvent ev = true) ∧
    (∀ s₀, fsAfter s₀ (callSteps c (pre ++ p :: post)) = OutFile.absent) ∧
    (∀ j, pre.length < j →
      Step.invokePrim j ∉ callSteps c (pre ++ p :: post)) := by
  have hne : p.outcome ≠ PrimOutcome.ok := by rw [hp]; intro h; cases h
  have hres := loop_result_of_pre_ok pre 0 p post hpre hne
  rw [hp] at hres
  refine ⟨⟨emitted (loopSteps 0 (pre ++ p :: post)).1, ?_,
    emitted_loopSteps_progress (pre ++ p :: post) 0⟩, ?_, ?_⟩
  · rw [emitted_callSteps, hres]
    rfl
  · intro s₀
    exact fsAfter_callSteps_error c (pre ++ p :: post) e hres s₀
  · intro j hj hmem
    have h1 := invoke_mem_callSteps c (pre ++ p :: post) j hmem
    have h2 := invoke_bound_loop_of_pre_ok pre 0 j p post hpre hne h1
    omega

/-- Concrete instance of C5: a two-input run whose second input fails after
reporting half progress ends in `errorRaised`, removes the destination file,
and never invokes the primitive for any input past index 1. -/
theorem c5_failure_terminal_cleanup_no_further_inputs_witness :
    (∃ ps, emitted (callSteps (ε := Unit) false
        ([⟨2, [2], PrimOutcome.ok⟩] ++ (⟨2, [1], PrimOutcome.err ()⟩ : PrimBehavior Unit) :: [])) =
        Event.started :: ps ++ [Event.errorRaised ()] ∧
        ∀ ev ∈ ps, isProgressEvent ev = true) ∧
    (∀ s₀, fsAfter s₀ (callSteps (ε := Unit) false
        ([⟨2, [2], PrimOutcome.ok⟩] ++ (⟨2, [1], PrimOutcome.err ()⟩ : PrimBehavior Unit) :: [])) =
      OutFile.absent) ∧
    (∀ j, (1 : Nat) < j → Step.invokePrim j ∉ callSteps (ε := Unit) false
        ([⟨2, [2], PrimOutcome.ok⟩] ++ (⟨2, [1], PrimOutcome.err ()⟩ : PrimBehavior Unit) :: [])) :=
  c5_failure_terminal_cleanup_no_further_inputs false
    [⟨2, [2], PrimOutcome.ok⟩] [] ⟨2, [1], PrimOutcome.err ()⟩ ()
    (by simp) rfl

/-- Claim C6 fails on the code as stated: cancelling before any input starts
does not in general yield `Cancelled` - on the empty input list the flag is
never consulted, the run completes and an archive file is left at the
destination. -/
theorem c6_cancel_before_empty_run_completes :
    emitted (callSteps (ε := Unit) true []) = [Event.started, Event.finished] ∧
    fsAfter OutFile.absent (callSteps (ε := Unit) true []) = OutFile.archiveFile 0 :=
  ⟨rfl, rfl⟩

/-- Claim C6 (amended): if the external primitive raises the cancellation
signal while converting input `k` (after all earlier inputs converted
normally), the run emits exactly the `cancelled` terminal signal, deletes any
file at the destination path, and invokes the primitive for no input after
`k`; in particular, cancelling before any input starts yields `Cancelled` and
leaves no file at the destination provided the input list is non-empty and the
primitive observes the flag and raises the cancellation signal on input 0
(`k = 0`). -/
theorem c6_cancellation_terminal_cleanup_no_further_inputs (c : Bool)
    (pre post : List (PrimBehavior ε)) (p : PrimBehavior ε)
    (hpre : ∀ q ∈ pre, q.outcome = PrimOutcome.ok)
    (hp : p.outcome = PrimOutcome.cancelledSig) :
    (∃ ps, emitted (callSteps c (pre ++ p :: post)) =
        Event.started :: ps ++ [Event.cancelled] ∧
        ∀ ev ∈ ps, isProgressEvent ev = true) ∧
    (∀ s₀, fsAfter s₀ (callSteps c (pre ++ p :: post)) = OutFile.absent) ∧
    (∀ j, pre.length < j →
      Step.invokePrim j ∉ callSteps c (pre ++ p :: post)) := by
  have hne : p.outcome ≠ PrimOutcome.ok := by rw [hp]; intro h; cases h
  have hres := loop_result_of_pre_ok pre 0 p post hpre hne
  rw [hp] at hres
  refine ⟨⟨emitted (loopSteps 0 (pre ++ p :: post)).1, ?_,
    emitted_loopSteps_progress (pre ++ p :: post) 0⟩, ?_, ?_⟩
  · rw [emitted_callSteps, hres]
    rfl
  · intro s₀
    exact fsAfter_callSteps_cancelled c (pre ++ p :: post) hres s₀
  · intro j hj hmem
    have h1 := invoke_mem_callSteps c (pre ++ p :: post) j hmem
    have h2 := invoke_bound_loop_of_pre_ok pre 0 j p post hpre hne h1
    omega

/-- Concrete instance of the amended C6: cancellation observed by the
primitive on input 0 of a one-input run ends in `cancelled`, leaves no
destination file, and invokes no primitive past index 0. -/
theorem c6_cancellation_terminal_cleanup_no_further_inputs_witness :
    (∃ ps, emitted (callSteps (ε := Unit) true
        ([] ++ (⟨1, [], PrimOutcome.cancelledSig⟩ : PrimBehavior Unit) :: [])) =
        Event.started :: ps ++ [Event.cancelled] ∧
        ∀ ev ∈ ps, isProgressEvent ev = true) ∧
    (∀ s₀, fsAfter s₀ (callSteps (ε := Unit) true
        ([] ++ (⟨1, [], PrimOutcome.cancelledSig⟩ : PrimBehavior Unit) :: [])) =
      OutFile.absent) ∧
    (∀ j, (0 : Nat) < j → Step.invokePrim j ∉ callSteps (ε := Unit) true
        ([] ++ (⟨1, [], PrimOutcome.cancelledSig⟩ : PrimBehavior Unit) :: [])) :=
  c6_cancellation_terminal_cleanup_no_further_inputs true [] []
    ⟨1, [], PrimOutcome.cancelledSig⟩ (by simp) rfl

/-- Claim C4 fails on the code as stated: under the claim's own trust
assumption on per-input progress (here a single input of one parser step
reporting full progress, then failing), the overall fraction 1.0 is reported
to the consumer during a run whose outcome is `errorRaised`, not the Completed
outcome. -/
theorem c4_full_fraction_reported_on_failed_run :
    goodPrim (⟨1, [1], PrimOutcome.err ()⟩ : PrimBehavior Unit) ∧
    (1 : ℚ) ∈ overallFractions 1 (callSteps false [⟨1, [1], PrimOutcome.err ()⟩]) ∧
    emitted (callSteps (ε := Unit) false [⟨1, [1], PrimOutcome.err ()⟩]) =
      [Event.started, Event.progress 0 1, Event.errorRaised ()] := by
  refine ⟨by norm_num [goodPrim], ?_, ?_⟩
  · norm_num [callSteps, convertSteps, loopSteps, primSteps, emitted,
      overallFractions, fracOf, overallFraction, List.filterMap_cons]
  · norm_num [callSteps, convertSteps, loopSteps, primSteps, emitted,
      List.filterMap_cons]

/-- Claim C4 (amended): for a non-empty input list, assuming each input's
primitive behaviour reports non-decreasing raw progress within
`[0, parser_steps]` with a positive step count, the overall fractions the
consumer receives - each equal to `(index + fraction) / N` by the consumer's
`(i + p) / num_of_inputs` wiring - form a non-decreasing sequence bounded by
1, every reported progress pair has a valid index and a per-input fraction in
`[0, 1]`, and a reported overall fraction equals 1 only while the last input
is at full per-input progress (it need not coincide with the Completed
outcome, as the run may still fail or be cancelled afterwards). -/
theorem c4_overall_fraction_monotone_bounded (c : Bool)
    (inputs : List (PrimBehavior ε)) (hne : inputs ≠ [])
    (hgood : ∀ p ∈ inputs, goodPrim p) :
    (overallFractions inputs.length (callSteps c inputs)).Chain' (· ≤ ·) ∧
    (∀ q ∈ overallFractions inputs.length (callSteps c inputs), 0 ≤ q ∧ q ≤ 1) ∧
    (∀ i f, Event.progress i f ∈ emitted (callSteps c inputs) →
      (i < inputs.length ∧ 0 ≤ f ∧ f ≤ 1) ∧
      (overallFraction inputs.length i f = 1 → i = inputs.length - 1 ∧ f = 1)) := by
  have hn : 0 < inputs.length := List.length_pos.mpr hne
  have hnQ : (0 : ℚ) < (inputs.length : ℚ) := by exact_mod_cast hn
  refine ⟨?_, ?_, ?_⟩
  · rw [overallFractions_callSteps]
    exact loopFracs_chain inputs.length inputs 0 hgood hn
  · rw [overallFractions_callSteps]
    intro q hq
    have h := loopFracs_bounds inputs.length inputs 0 hgood hn q hq
    rcases h with ⟨h1, h2⟩
    constructor
    · calc (0 : ℚ) = (0 : ℚ) / (inputs.length : ℚ) := by rw [zero_div]
        _ ≤ q := by exact_mod_cast h1
    · calc q ≤ ((0 : ℚ) + (inputs.length : ℚ)) / (inputs.length : ℚ) := h2
        _ = 1 := by rw [zero_add, div_self hnQ.ne']
  · intro i f hmem
    rw [emitted_callSteps] at hmem
    rcases List.mem_cons.mp hmem with h | h
    · cases h
    rcases List.mem_append.mp h with h | h
    swap
    · exfalso
      rcases List.mem_singleton.mp h with h'
      cases hr : (loopSteps 0 inputs).2 <;> rw [hr] at h' <;> cases h'
    rcases progress_mem_loop inputs 0 i f h with ⟨_, hi, p, hp, x, hx, rfl⟩
    rcases hgood p hp with ⟨hs, _, hbound⟩
    rcases hbound x hx with ⟨hx0, hxs⟩
    have hsQ : (0 : ℚ) < (p.steps : ℚ) := by exact_mod_cast hs
    have hf0 : (0 : ℚ) ≤ x / (p.steps : ℚ) := div_nonneg hx0 hsQ.le
    have hf1 : x / (p.steps : ℚ) ≤ 1 := (div_le_one hsQ).mpr hxs
    have hilt : i < inputs.length := by omega
    refine ⟨⟨hilt, hf0, hf1⟩, ?_⟩
    intro hone
    have hiub : (i : ℚ) + 1 ≤ (inputs.length : ℚ) := by exact_mod_cast hilt
    have hsum : (i : ℚ) + x / (p.steps : ℚ) = (inputs.length : ℚ) := by
      have := hone
      rw [overallFraction, div_eq_one_iff_eq hnQ.ne'] at this
      exact this
    have hfx : x / (p.steps : ℚ) = 1 := by linarith
    have hiq : (i : ℚ) + 1 = (inputs.length : ℚ) := by linarith
    have hi1 : i + 1 = inputs.length := by exact_mod_cast hiq
    exact ⟨by omega, hfx⟩

/-- Concrete instance of the amended C4: a two-input run reporting progress
0, half and full on each input satisfies the trust assumption, so its overall
fractions are monotone and bounded. -/
theorem c4_overall_fraction_monotone_bounded_witness :
    ([⟨2, [0, 1, 2], PrimOutcome.ok⟩, ⟨2, [1, 2], PrimOutcome.ok⟩] :
        List (PrimBehavior Unit)) ≠ [] ∧
    (∀ p ∈ ([⟨2, [0, 1, 2], PrimOutcome.ok⟩, ⟨2, [1, 2], PrimOutcome.ok⟩] :
        List (PrimBehavior Unit)), goodPrim p) ∧
    ((overallFractions 2 (callSteps false
        ([⟨2, [0, 1, 2], PrimOutcome.ok⟩, ⟨2, [1, 2], PrimOutcome.ok⟩] :
          List (PrimBehavior Unit)))).Chain' (· ≤ ·) ∧
      (∀ q ∈ overallFractions 2 (callSteps false
          ([⟨2, [0, 1, 2], PrimOutcome.ok⟩, ⟨2, [1, 2], PrimOutcome.ok⟩] :
            List (PrimBehavior Unit))), 0 ≤ q ∧ q ≤ 1) ∧
      (∀ i f, Event.progress i f ∈ emitted (callSteps false
          ([⟨2, [0, 1, 2], PrimOutcome.ok⟩, ⟨2, [1, 2], PrimOutcome.ok⟩] :
            List (PrimBehavior Unit))) →
        (i < 2 ∧ 0 ≤ f ∧ f ≤ 1) ∧
        (overallFraction 2 i f = 1 → i = 1 ∧ f = 1))) :=
  ⟨by decide, by norm_num [goodPrim, List.chain'_cons, List.chain'_singleton],
    c4_overall_fraction_monotone_bounded false
      [⟨2, [0, 1, 2], PrimOutcome.ok⟩, ⟨2, [1, 2], PrimOutcome.ok⟩]
      (by decide) (by norm_num [goodPrim, List.chain'_cons, List.chain'_singleton])⟩

end Convert2EBRF
